import Mathlib

/-!
Verification of the gitjuggling tool: a shallow embedding of its
`.gitmodules` parser (src/gitmodules.rs), its repository discovery walk and
command dispatch pipeline (src/main.rs), together with proofs of the
specification's claims.

Modelling conventions:
* Rust strings are modelled as `List Char`.  Byte positions returned by
  `str::find` are modelled as character positions; all inputs of interest
  are ASCII, where the two coincide, and `find` always returns a char
  boundary so the slicing semantics agree.
* Filesystem paths are modelled as their lists of normal components; a
  canonical absolute path renders as `"/" ++ components joined by "/"`.
* The parser's two `while` loops are compiled to fuel-indexed structural
  recursion; the top-level entry point supplies `input.length + 1` fuel,
  which is always sufficient because every loop iteration consumes at
  least one character of input (the out-of-fuel branch is unreachable and
  exists only to make the recursion structural).
-/

/-- Errors of the `.gitmodules` parser (`enum ParseError` in gitmodules.rs).
The `io` payload carries the message of the wrapped IO error. -/
inductive ParseError where
  | io (msg : String)
  | invalidFile (msg : String)
  | eof
  deriving DecidableEq, Repr

/-- One `[submodule "..."]` section (`struct GitSubmodule`).  The Rust
`path: PathBuf` field is kept as the raw string it was built from;
path comparisons go through `pathComponents` below, mirroring `PathBuf`
equality, which compares component sequences. -/
structure GitSubmodule where
  name : String
  path : String
  url : String
  branch : Option String
  deriving DecidableEq, Repr

/-- A parsed `.gitmodules` file (`struct GitModules`). -/
structure GitModules where
  submodules : List GitSubmodule
  deriving DecidableEq, Repr

/-- Split a character list into path components at `/`, dropping empty
segments — the component sequence of a relative `Path` in Rust. -/
def splitComponents : List Char → List Char → List String
  | acc, [] => if acc.isEmpty then [] else [acc.reverse.asString]
  | acc, c :: rest =>
    if c = '/' then
      (if acc.isEmpty then [] else [acc.reverse.asString]) ++ splitComponents [] rest
    else
      splitComponents (c :: acc) rest

/-- Component sequence of a path given as a string (`Path::components`). -/
def pathComponents (s : String) : List String :=
  splitComponents [] s.toList

/-- `GitModules::contains`: does some declared submodule `path` equal the
given path (compared as component sequences, like `PathBuf` equality)? -/
def GitModules.contains (gm : GitModules) (p : List String) : Bool :=
  gm.submodules.any (fun sub => pathComponents sub.path == p)

/-- The characters skipped by `eat_whitespace` (space, tab, newline —
note that `\r` is not among them). -/
def ewsChar (c : Char) : Bool :=
  c = ' ' || c = '\t' || c = '\n'

/-- `GitModulesParser::eat_whitespace`. -/
def eatWhitespace (input : List Char) : List Char :=
  input.dropWhile ewsChar

/-- The characters removed by Rust `str::trim` (restricted to ASCII,
which is all the parser ever trims). -/
def trimChar (c : Char) : Bool :=
  c = ' ' || c = '\t' || c = '\n' || c = '\r'

/-- Rust `str::trim` on a character list: strip leading and trailing
whitespace. -/
def rustTrim (l : List Char) : List Char :=
  ((l.dropWhile trimChar).reverse.dropWhile trimChar).reverse

/-- `GitModulesParser::expect_string`: consume an exact literal or fail. -/
def expectString (expected : List Char) (input : List Char) :
    Except ParseError (List Char) :=
  if input.take expected.length = expected then
    .ok (input.drop expected.length)
  else
    .error (.invalidFile ("string " ++ expected.asString ++ " not found"))

/-- Position of the first occurrence of the two-character pattern `a, b`
(`str::find` applied to a two-character pattern such as `"\"]"`). -/
def findSub2 (a b : Char) : List Char → Option Nat
  | x :: y :: rest =>
    if x = a && y = b then some 0 else (findSub2 a b (y :: rest)).map (· + 1)
  | _ => none

/-- Whether the two-character pattern `a, b` occurs in the list. -/
def hasSub2 (a b : Char) : List Char → Bool
  | x :: y :: rest => (x = a && y = b) || hasSub2 a b (y :: rest)
  | _ => false

/-- `GitModulesParser::parse_quoted_string`: expect a leading `"`, then
take everything up to the first `"]`, consuming it. -/
def parseQuotedString (input : List Char) :
    Except ParseError (String × List Char) :=
  match input with
  | '"' :: rest =>
    match findSub2 '"' ']' rest with
    | some pos => .ok ((rest.take pos).asString, rest.drop (pos + 2))
    | none => .error (.invalidFile "expected submodule name to end with a \"")
  | _ => .error (.invalidFile "expected submodule name to start with a \"")

/-- `GitModulesParser::parse_until_or_err`: take (trimmed) everything up to
the first occurrence of `ch`, consuming it; `EOF` error if absent. -/
def parseUntilOrErr (ch : Char) (input : List Char) :
    Except ParseError (String × List Char) :=
  match input.findIdx? (fun c => c = ch) with
  | some pos => .ok ((rustTrim (input.take pos)).asString, input.drop (pos + 1))
  | none => .error .eof

/-- `GitModulesParser::parse_until`: like `parse_until_or_err` but if `ch`
is absent, take (trimmed) the whole remaining input. -/
def parseUntilChar (ch : Char) (input : List Char) : String × List Char :=
  match input.findIdx? (fun c => c = ch) with
  | some pos => ((rustTrim (input.take pos)).asString, input.drop (pos + 1))
  | none => ((rustTrim input).asString, [])

/-- `HashMap::get` for the section's key/value map, modelled as the list of
`insert` calls in order: the most recent insert for a key wins. -/
def hmGet (data : List (String × String)) (k : String) : Option String :=
  (data.reverse.find? (fun p => p.1 == k)).map (fun p => p.2)

/-- `HashMap::get(...).unwrap_or_default()`. -/
def hmGetD (data : List (String × String)) (k : String) (d : String) : String :=
  (hmGet data k).getD d

/-- The key/value loop of `GitModulesParser::parse_submodule` (the inner
`'l: loop`): skip whitespace; stop (keeping the remaining input) on a `[`
or on end-of-input while looking for `=`; otherwise read `key = value`
and continue.  `fuel` only makes the recursion structural. -/
def parseKeyValuesF : Nat → List (String × String) → List Char →
    Except ParseError (List (String × String) × List Char)
  | 0, _, _ => .error (.invalidFile "internal: out of fuel")
  | fuel + 1, acc, input =>
    let w := eatWhitespace input
    if w.head? = some '[' then
      .ok (acc, w)
    else
      match parseUntilOrErr '=' w with
      | .error .eof => .ok (acc, w)
      | .error e => .error e
      | .ok (key, rest1) =>
        let (value, rest2) := parseUntilChar '\n' rest1
        parseKeyValuesF fuel (acc ++ [(key, value)]) rest2

/-- The literal consumed by `self.expect_string("[submodule ")`. -/
def sectionHeaderStart : List Char := "[submodule ".toList

/-- `GitModulesParser::parse_submodule`: leading whitespace, the
`[submodule "<name>"]` header, then the key/value loop; the resulting
declaration takes `path`/`url` with empty-string default and optional
`branch` from the collected map. -/
def parseSubmoduleF (fuel : Nat) (input : List Char) :
    Except ParseError (GitSubmodule × List Char) :=
  let i1 := eatWhitespace input
  match expectString sectionHeaderStart i1 with
  | .error e => .error e
  | .ok i2 =>
    match parseQuotedString i2 with
    | .error e => .error e
    | .ok (name, i3) =>
      match parseKeyValuesF fuel [] i3 with
      | .error e => .error e
      | .ok (data, i4) =>
        .ok ({ name := name
               path := hmGetD data "path" ""
               url := hmGetD data "url" ""
               branch := hmGet data "branch" }, i4)

/-- The section loop of `GitModulesParser::parse` (`'l: while`): while
input remains, parse a section; `EOF` ends the loop successfully with the
sections collected so far, any other error is returned. -/
def parseLoopF : Nat → List GitSubmodule → List Char →
    Except ParseError (List GitSubmodule)
  | 0, _, _ => .error (.invalidFile "internal: out of fuel")
  | fuel + 1, acc, input =>
    if input.isEmpty then
      .ok acc
    else
      match parseSubmoduleF (fuel + 1) input with
      | .ok (s, rest) => parseLoopF fuel (acc ++ [s]) rest
      | .error .eof => .ok acc
      | .error e => .error e

/-- `GitModulesParser::parse` on a character list. -/
def parseGitModules (input : List Char) : Except ParseError GitModules :=
  (parseLoopF (input.length + 1) [] input).map (fun subs => { submodules := subs })

/-- `GitModules::parse`. -/
def GitModules.parse (s : String) : Except ParseError GitModules :=
  parseGitModules s.toList

/-- The root directory component: the walk only meets canonical absolute
paths, so an empty parent component list stands for the filesystem root,
whose single Rust `Component` is `RootDir`, rendered `/`.  No relative
declared submodule path ever has this as a component. -/
def rootDir : String := "/"

/-- `is_submodule` from main.rs: take the parent of the candidate `.git`
path, take the final component of that parent as a one-component path,
and test membership in the current `GitModules` (if any). -/
def isSubmodule (path : List String) (gitmodules : Option GitModules) : Bool :=
  match gitmodules with
  | some gm =>
    if path.isEmpty then
      false
    else
      let parentPath := path.dropLast
      let tmp : List String :=
        match parentPath.getLast? with
        | some c => [c]
        | none => [rootDir]
      gm.contains tmp
  | none => false

/-- One entry met by the `WalkDir` traversal in `get_repositories_paths`:
its canonical path and, when a `.gitmodules` file exists directly under
it, that file's contents.  Entries that failed canonicalization with
`NotFound` are skipped by the walk and therefore simply absent here. -/
structure WalkEntry where
  path : List String
  gitmodulesContent : Option String
  deriving DecidableEq, Repr

/-- The string rendering (`to_string_lossy`) of a canonical absolute path
given by its component list. -/
def pathChars (p : List String) : List Char :=
  p.foldl (fun acc comp => acc ++ '/' :: comp.toList) []

/-- The `path_string.ends_with(".git")` test of `get_repositories_paths`:
a string-suffix check on the rendered path, not a final-segment check. -/
def endsWithDotGit (p : List String) : Bool :=
  List.isSuffixOf ".git".toList (pathChars p)

/-- The body of the `for entry in walker` loop of `get_repositories_paths`:
first update the current `GitModules` from a `.gitmodules` file if one
exists (a parse failure leaves the previous value), then skip entries not
ending in `.git`, skip submodules, and record the path minus its final
segment (`path.pop()`) otherwise. -/
def walkStep (state : Option GitModules × List (List String)) (e : WalkEntry) :
    Option GitModules × List (List String) :=
  let gm : Option GitModules :=
    match e.gitmodulesContent with
    | some content =>
      match GitModules.parse content with
      | .ok tmp => some tmp
      | .error _ => state.1
    | none => state.1
  if !endsWithDotGit e.path then
    (gm, state.2)
  else if isSubmodule e.path gm then
    (gm, state.2)
  else
    (gm, state.2 ++ [e.path.dropLast])

/-- `get_repositories_paths`, as a fold of `walkStep` over the entries the
walk visits in traversal order, starting with no current `GitModules`. -/
def getRepositoriesPaths (entries : List WalkEntry) : List (List String) :=
  (entries.foldl walkStep (none, [])).2

/-- The process invocation built by `do_git_command`: which executable is
spawned, with which arguments and working directory. -/
structure SpawnSpec where
  program : String
  args : List String
  cwd : List String
  deriving DecidableEq, Repr

/-- `do_git_command` builds `process::Command::new("git").args(args)
.current_dir(path)`: the executable is the fixed string `git` and the
user-supplied vector is passed through verbatim as its arguments. -/
def doGitCommand (path : List String) (args : List String) : SpawnSpec :=
  { program := "git", args := args, cwd := path }

/-- Result of attempting one spawn: the spawn itself failed
(`Err` from `Command::output`), or the process ran to termination with
captured stdout, stderr and an exit status. -/
inductive SpawnResult where
  | failure (msg : String)
  | output (stdout stderr : String) (success : Bool)

/-- `struct Item` from main.rs (the `err` field keeps the error message). -/
structure Item where
  path : List String
  success : Bool
  stdout : String
  stderr : String
  err : Option String
  deriving DecidableEq

/-- The per-repository closure of the `into_par_iter().map(...)` in `main`:
a spawn failure yields a failed `Item` carrying the error; a completed
process yields an `Item` with trimmed captured output, successful iff the
exit status was.  `exec` abstracts the outcome of running the external
process in the given repository. -/
def runOne (exec : List String → SpawnResult) (path : List String) : Item :=
  match exec path with
  | .failure msg =>
    { path := path, success := false, stdout := "", stderr := "", err := some msg }
  | .output out err ok =>
    { path := path, success := ok
      stdout := (rustTrim out.toList).asString
      stderr := (rustTrim err.toList).asString
      err := none }

/-- The dispatch stage: one `Item` per discovered path, in input order
(`into_par_iter().map(...).collect::<Vec<_>>()` preserves order). -/
def runAll (exec : List String → SpawnResult) (paths : List (List String)) :
    List Item :=
  paths.map (runOne exec)

/-- The aggregation stage: `results.into_iter().partition(|item| item.success)`. -/
def partitionItems (items : List Item) : List Item × List Item :=
  items.partition (fun it => it.success)

/-- The thread-count argument `main` passes to rayon:
`ThreadPoolBuilder::new().num_threads(0)`. -/
def configuredNumThreads : Nat := 0

/-- Rayon's documented interpretation of `num_threads` (external library
semantics): `0` selects the automatic default of one worker thread per
available logical CPU; any other value is used as given. -/
def effectiveWorkerCount (numCpus : Nat) : Nat :=
  if configuredNumThreads = 0 then numCpus else configuredNumThreads

deriving instance DecidableEq for Except

/-- A well-formed `[submodule "..."]` section as raw text data: the quoted
name and the raw `key = value` lines (key text before the first `=`, value
text up to end of line). -/
structure RawSection where
  name : String
  keys : List (String × String)
  deriving DecidableEq, Repr

/-- Characters allowed in the raw key text of a well-formed `key = value`
line: anything but `=` (which would split the line early), `\n` (which
would end it early) and `[` (which would end the section early). -/
def goodKeyChar (c : Char) : Bool :=
  !(c = '=' || c = '\n' || c = '[')

/-- Well-formedness of one section: the name does not contain the
terminator `"]`, keys avoid `=`, `\n` and `[`, and values avoid `\n`. -/
def GoodSection (s : RawSection) : Prop :=
  hasSub2 '"' ']' s.name.toList = false ∧
    ∀ kv ∈ s.keys,
      kv.1.toList.all goodKeyChar = true ∧
        kv.2.toList.all (fun c => !(c = '\n')) = true

instance (s : RawSection) : Decidable (GoodSection s) := by
  unfold GoodSection; infer_instance

/-- Render the `key = value` lines of a section. -/
def renderKeys : List (String × String) → List Char
  | [] => []
  | (k, v) :: rest => k.toList ++ '=' :: v.toList ++ '\n' :: renderKeys rest

/-- Render one section: `[submodule "<name>"]` followed by its lines. -/
def renderSection (s : RawSection) : List Char :=
  sectionHeaderStart ++ '"' :: s.name.toList ++ '"' :: ']' :: '\n' :: renderKeys s.keys

/-- Render a whole well-formed `.gitmodules` input. -/
def renderSections (l : List RawSection) : List Char :=
  (l.map renderSection).flatten

/-- The key/value pair the parser stores for one raw line: both sides
trimmed. -/
def trimPair (kv : String × String) : String × String :=
  ((rustTrim kv.1.toList).asString, (rustTrim kv.2.toList).asString)

/-- The declaration the specification promises for a well-formed section:
its name is the header's quoted text; `path` and `url` are the trimmed
values of the last matching keys (empty when absent) and `branch` is
optional. -/
def declOf (s : RawSection) : GitSubmodule :=
  let data := s.keys.map trimPair
  { name := s.name
    path := hmGetD data "path" ""
    url := hmGetD data "url" ""
    branch := hmGet data "branch" }

/-- Does parsing report a malformed file (`ParseError::InvalidFile`)? -/
def isInvalidFileErr (r : Except ParseError GitModules) : Bool :=
  match r with
  | .error (.invalidFile _) => true
  | _ => false

/-- The repository-marker test the specification describes for claim C2:
the final path segment is exactly `.git`. -/
def lastSegmentIsDotGit (p : List String) : Bool :=
  p.getLast? == some ".git"

/-! ### Helper lemmas about the character-level parsing primitives -/

theorem trimChar_of_ewsChar {c : Char} (h : ewsChar c = true) : trimChar c = true := by
  simp only [ewsChar, Bool.or_eq_true, decide_eq_true_eq] at h
  simp only [trimChar, Bool.or_eq_true, decide_eq_true_eq]
  tauto

theorem eatWhitespace_cons_of_not_ws {c : Char} (hc : ewsChar c = false)
    (t : List Char) : eatWhitespace (c :: t) = c :: t := by
  simp [eatWhitespace, List.dropWhile_cons, hc]

theorem eatWhitespace_append_cons {c : Char} (hc : ewsChar c = false)
    (l t : List Char) :
    eatWhitespace (l ++ c :: t) = eatWhitespace l ++ c :: t := by
  induction l with
  | nil => simp [eatWhitespace, List.dropWhile_cons, hc]
  | cons x l ih =>
    by_cases hx : ewsChar x
    · simpa [eatWhitespace, List.dropWhile_cons, hx] using ih
    · simp [eatWhitespace, List.dropWhile_cons, hx]

theorem eatWhitespace_eq_nil {ws : List Char}
    (h : ∀ c ∈ ws, ewsChar c = true) : eatWhitespace ws = [] := by
  simpa [eatWhitespace, List.dropWhile_eq_nil_iff] using h

theorem eatWhitespace_length_le (l : List Char) :
    (eatWhitespace l).length ≤ l.length := by
  induction l with
  | nil => simp [eatWhitespace]
  | cons x l ih =>
    by_cases hx : ewsChar x
    · simp only [eatWhitespace, List.dropWhile_cons, hx, if_true]
      exact Nat.le_trans ih (Nat.le_succ _)
    · simp [eatWhitespace, List.dropWhile_cons, hx]

theorem mem_of_mem_dropWhile {p : Char → Bool} :
    ∀ {l : List Char} {x : Char}, x ∈ l.dropWhile p → x ∈ l := by
  intro l
  induction l with
  | nil => intro x h; exact absurd h (by simp)
  | cons c t ih =>
    intro x h
    by_cases hc : p c
    · simp only [List.dropWhile_cons, hc, if_true] at h
      exact List.mem_cons_of_mem _ (ih h)
    · simpa [List.dropWhile_cons, hc] using h

theorem dropWhile_trim_of_ews :
    ∀ l : List Char, (l.dropWhile ewsChar).dropWhile trimChar = l.dropWhile trimChar := by
  intro l
  induction l with
  | nil => rfl
  | cons c t ih =>
    by_cases hc : ewsChar c
    · simp [List.dropWhile_cons, hc, trimChar_of_ewsChar hc, ih]
    · simp [List.dropWhile_cons, hc]

theorem rustTrim_eatWhitespace (l : List Char) :
    rustTrim (eatWhitespace l) = rustTrim l := by
  unfold rustTrim eatWhitespace
  rw [dropWhile_trim_of_ews]

theorem findIdx?_cons_append {p : Char → Bool} {c : Char} (hc : p c = true) :
    ∀ (l : List Char), (∀ x ∈ l, p x = false) → ∀ t : List Char,
      List.findIdx? p (l ++ c :: t) = some l.length := by
  intro l
  induction l with
  | nil => intro _ t; simp [List.findIdx?_cons, hc]
  | cons x l ih =>
    intro hl t
    have hx : p x = false := hl x (by simp)
    have ihl := ih (fun y hy => hl y (List.mem_cons_of_mem _ hy)) t
    simp [List.findIdx?_cons, hx, List.findIdx?_succ, ihl]

theorem take_len_append (l t : List Char) : (l ++ t).take l.length = l :=
  List.take_left l t

theorem drop_len_append (l t : List Char) : (l ++ t).drop l.length = t :=
  List.drop_left l t

theorem drop_len_succ_append (l : List Char) (c : Char) (t : List Char) :
    (l ++ c :: t).drop (l.length + 1) = t := by
  have h : l ++ c :: t = (l ++ [c]) ++ t := by simp
  rw [h]
  have hlen : (l ++ [c]).length = l.length + 1 := by simp
  rw [← hlen, drop_len_append]

theorem findSub2_append {a b : Char} (hab : a ≠ b) :
    ∀ (l : List Char), hasSub2 a b l = false → ∀ t : List Char,
      findSub2 a b (l ++ a :: b :: t) = some l.length := by
  intro l
  induction l with
  | nil =>
    intro _ t
    simp [findSub2]
  | cons x l ih =>
    intro hl t
    cases l with
    | nil =>
      have hx : ¬(x = a ∧ a = b) := fun h => hab h.2
      simp only [List.cons_append, List.nil_append, findSub2]
      rw [if_neg (by simpa [Bool.and_eq_true, decide_eq_true_eq] using hx)]
      simp [findSub2]
    | cons y l2 =>
      have hxy : (x = a ∧ y = b) → False := by
        intro h
        simp [hasSub2, h.1, h.2] at hl
      have htail : hasSub2 a b (y :: l2) = false := by
        simp only [hasSub2, Bool.or_eq_false_iff] at hl
        exact hl.2
      have ihl := ih htail t
      simp only [List.cons_append, findSub2]
      rw [if_neg (by simpa [Bool.and_eq_true, decide_eq_true_eq] using hxy)]
      rw [List.cons_append] at ihl
      simp [ihl]

theorem asString_toList (s : String) : s.toList.asString = s := rfl

/-! ### Round-trip of the parser over rendered well-formed input -/

theorem parseKeyValuesF_render :
    ∀ (ks : List (String × String)) (fuel : Nat) (acc : List (String × String))
      (rest : List Char),
      (renderKeys ks ++ rest).length < fuel →
      (∀ kv ∈ ks, kv.1.toList.all goodKeyChar = true ∧
          kv.2.toList.all (fun c => !(c = '\n')) = true) →
      (eatWhitespace rest = [] ∨ (eatWhitespace rest).head? = some '[') →
      parseKeyValuesF fuel acc (renderKeys ks ++ rest) =
        .ok (acc ++ ks.map trimPair, eatWhitespace rest) := by
  intro ks
  induction ks with
  | nil =>
    intro fuel acc rest hfuel hks hrest
    obtain ⟨f, rfl⟩ : ∃ f, fuel = f + 1 := ⟨fuel - 1, by omega⟩
    simp only [renderKeys, List.nil_append, List.map_nil, List.append_nil]
    rcases hrest with h0 | h0 <;>
      simp [parseKeyValuesF, h0, parseUntilOrErr]
  | cons kv t ih =>
    intro fuel acc rest hfuel hks hrest
    obtain ⟨k, v⟩ := kv
    obtain ⟨f, rfl⟩ : ∃ f, fuel = f + 1 := ⟨fuel - 1, by omega⟩
    have hkv := hks (k, v) (by simp)
    have hkchars : ∀ x ∈ k.toList, goodKeyChar x = true := by
      simpa [List.all_eq_true] using hkv.1
    have hvchars : ∀ x ∈ v.toList, (x = '\n') = False := by
      intro x hx
      have := hkv.2
      simp only [List.all_eq_true] at this
      have hx2 := this x hx
      simp only [Bool.not_eq_true', decide_eq_false_iff_not] at hx2
      simp [hx2]
    have hinput : renderKeys ((k, v) :: t) ++ rest =
        k.toList ++ '=' :: (v.toList ++ '\n' :: (renderKeys t ++ rest)) := by
      simp [renderKeys]
    have heq : ewsChar '=' = false := by decide
    have hw : eatWhitespace (k.toList ++ '=' :: (v.toList ++ '\n' :: (renderKeys t ++ rest))) =
        eatWhitespace k.toList ++ '=' :: (v.toList ++ '\n' :: (renderKeys t ++ rest)) :=
      eatWhitespace_append_cons heq _ _
    have hdkmem : ∀ x ∈ eatWhitespace k.toList, goodKeyChar x = true :=
      fun x hx => hkchars x (mem_of_mem_dropWhile hx)
    have hhead : ((eatWhitespace k.toList ++
        '=' :: (v.toList ++ '\n' :: (renderKeys t ++ rest))).head? = some '[') = False := by
      cases hdk : eatWhitespace k.toList with
      | nil => simp
      | cons d ds =>
        have hd : goodKeyChar d = true := by
          have : d ∈ eatWhitespace k.toList := by rw [hdk]; simp
          exact hdkmem d this
        have : ¬ d = '[' := by
          simp only [goodKeyChar, Bool.not_eq_true', Bool.or_eq_false_iff,
            decide_eq_false_iff_not] at hd
          exact hd.2
        simp [this]
    have hfind : List.findIdx? (fun c => c = '=')
        (eatWhitespace k.toList ++ '=' :: (v.toList ++ '\n' :: (renderKeys t ++ rest))) =
        some (eatWhitespace k.toList).length := by
      apply findIdx?_cons_append (by simp)
      intro x hx
      have hgx := hdkmem x hx
      simp only [goodKeyChar, Bool.not_eq_true', Bool.or_eq_false_iff,
        decide_eq_false_iff_not] at hgx
      simp [hgx.1.1]
    have hvfind : List.findIdx? (fun c => c = '\n')
        (v.toList ++ '\n' :: (renderKeys t ++ rest)) = some v.toList.length := by
      apply findIdx?_cons_append (by simp)
      intro x hx
      simp [hvchars x hx]
    simp only [hinput]
    simp only [parseKeyValuesF, hw, hhead, if_false]
    simp only [parseUntilOrErr, hfind, take_len_append, drop_len_succ_append]
    simp only [parseUntilChar, hvfind, take_len_append, drop_len_succ_append]
    rw [show eatWhitespace k.toList = eatWhitespace k.toList from rfl]
    rw [show rustTrim (eatWhitespace k.toList) = rustTrim k.toList from
      rustTrim_eatWhitespace _]
    have hfrec : (renderKeys t ++ rest).length < f := by
      have : (renderKeys ((k, v) :: t) ++ rest).length =
          k.toList.length + 1 + (v.toList.length + 1 + (renderKeys t ++ rest).length) := by
        simp [renderKeys]
        omega
      omega
    rw [ih f (acc ++ [((rustTrim k.toList).asString, (rustTrim v.toList).asString)])
      rest hfrec (fun kv2 h2 => hks kv2 (List.mem_cons_of_mem _ h2)) hrest]
    simp [trimPair]

theorem parseKeyValuesF_ws_cons {c : Char} (hc : ewsChar c = true)
    (f : Nat) (acc : List (String × String)) (x : List Char) :
    parseKeyValuesF (f + 1) acc (c :: x) = parseKeyValuesF (f + 1) acc x := by
  simp only [parseKeyValuesF]
  rw [show eatWhitespace (c :: x) = eatWhitespace x by
    simp [eatWhitespace, List.dropWhile_cons, hc]]

theorem sectionHeaderStart_cons : sectionHeaderStart = '[' :: "submodule ".toList := rfl

theorem expectString_append (e t : List Char) : expectString e (e ++ t) = .ok t := by
  simp [expectString, take_len_append, drop_len_append]

theorem drop_len_add_two (l : List Char) (a b : Char) (t : List Char) :
    (l ++ a :: b :: t).drop (l.length + 2) = t := by
  have h : l ++ a :: b :: t = (l ++ [a, b]) ++ t := by simp
  rw [h]
  have hlen : (l ++ [a, b]).length = l.length + 2 := by simp
  rw [← hlen, drop_len_append]

theorem renderSection_shape (s : RawSection) (rest : List Char) :
    renderSection s ++ rest =
      sectionHeaderStart ++
        ('"' :: (s.name.toList ++ '"' :: ']' :: '\n' :: (renderKeys s.keys ++ rest))) := by
  simp [renderSection]

theorem parseSubmoduleF_render (f : Nat) (s : RawSection) (rest : List Char)
    (hfuel : (renderSection s ++ rest).length < f + 1)
    (hs : GoodSection s)
    (hrest : eatWhitespace rest = [] ∨ (eatWhitespace rest).head? = some '[') :
    parseSubmoduleF (f + 1) (renderSection s ++ rest) =
      .ok (declOf s, eatWhitespace rest) := by
  have hshape := renderSection_shape s rest
  have h1 : eatWhitespace (renderSection s ++ rest) = renderSection s ++ rest := by
    rw [hshape, sectionHeaderStart_cons, List.cons_append,
      eatWhitespace_cons_of_not_ws (by decide), ← List.cons_append,
      ← sectionHeaderStart_cons, ← hshape]
  have hfind := findSub2_append (by decide : ('"' : Char) ≠ ']')
    s.name.toList hs.1 ('\n' :: (renderKeys s.keys ++ rest))
  have htake : (s.name.toList ++ '"' :: ']' :: '\n' :: (renderKeys s.keys ++ rest)).take
      s.name.toList.length = s.name.toList :=
    take_len_append s.name.toList _
  have hdrop : (s.name.toList ++ '"' :: ']' :: '\n' :: (renderKeys s.keys ++ rest)).drop
      (s.name.toList.length + 2) = '\n' :: (renderKeys s.keys ++ rest) :=
    drop_len_add_two s.name.toList '"' ']' _
  have hlen : (renderSection s ++ rest).length =
      15 + s.name.toList.length + (renderKeys s.keys ++ rest).length := by
    simp [renderSection, sectionHeaderStart]
    omega
  have hkv : parseKeyValuesF (f + 1) [] ('\n' :: (renderKeys s.keys ++ rest)) =
      .ok ([] ++ s.keys.map trimPair, eatWhitespace rest) := by
    rw [parseKeyValuesF_ws_cons (by decide)]
    exact parseKeyValuesF_render s.keys (f + 1) [] rest (by omega) hs.2 hrest
  rw [hshape]
  have h1' : eatWhitespace (sectionHeaderStart ++
      '"' :: (s.name.toList ++ '"' :: ']' :: '\n' :: (renderKeys s.keys ++ rest))) =
      sectionHeaderStart ++
        '"' :: (s.name.toList ++ '"' :: ']' :: '\n' :: (renderKeys s.keys ++ rest)) := by
    rw [sectionHeaderStart_cons, List.cons_append,
      eatWhitespace_cons_of_not_ws (by decide)]
  simp only [parseSubmoduleF, h1', expectString_append, parseQuotedString,
    hfind, htake, hdrop, hkv]
  simp [declOf, asString_toList]
  rfl

theorem renderSections_cons (s : RawSection) (t : List RawSection) :
    renderSections (s :: t) = renderSection s ++ renderSections t := by
  simp [renderSections]

theorem renderSection_cons_shape (s : RawSection) :
    renderSection s = '[' ::
      ("submodule ".toList ++
        '"' :: (s.name.toList ++ '"' :: ']' :: '\n' :: renderKeys s.keys)) := by
  rw [renderSection, sectionHeaderStart_cons]
  simp

theorem renderSection_length (s : RawSection) :
    (renderSection s).length =
      15 + s.name.toList.length + (renderKeys s.keys).length := by
  simp [renderSection, sectionHeaderStart]
  omega

theorem parseLoopF_succ (f : Nat) (acc : List GitSubmodule) (input : List Char) :
    parseLoopF (f + 1) acc input =
      if input.isEmpty then
        .ok acc
      else
        match parseSubmoduleF (f + 1) input with
        | .ok (s, rest) => parseLoopF f (acc ++ [s]) rest
        | .error .eof => .ok acc
        | .error e => .error e := rfl

theorem parseLoopF_render :
    ∀ (l : List RawSection) (f : Nat) (acc : List GitSubmodule) (ws : List Char),
      (renderSections l ++ ws).length < f + 1 →
      (∀ s ∈ l, GoodSection s) →
      (∀ c ∈ ws, ewsChar c = true) →
      (l ≠ [] ∨ ws = []) →
      parseLoopF (f + 1) acc (renderSections l ++ ws) = .ok (acc ++ l.map declOf) := by
  intro l
  induction l with
  | nil =>
    intro f acc ws hfuel hl hws hne
    have hws0 : ws = [] := by tauto
    subst hws0
    simp [renderSections, parseLoopF]
  | cons s t ih =>
    intro f acc ws hfuel hl hws _
    rw [renderSections_cons, List.append_assoc]
    have hempty : (renderSection s ++ (renderSections t ++ ws)).isEmpty = false := by
      rw [renderSection_cons_shape]
      simp
    have hrest : eatWhitespace (renderSections t ++ ws) = [] ∨
        (eatWhitespace (renderSections t ++ ws)).head? = some '[' := by
      cases t with
      | nil =>
        left
        simpa [renderSections] using eatWhitespace_eq_nil hws
      | cons s2 t2 =>
        right
        rw [renderSections_cons, renderSection_cons_shape, List.append_assoc,
          List.cons_append, eatWhitespace_cons_of_not_ws (by decide)]
        rfl
    have hfuel2 : (renderSection s ++ (renderSections t ++ ws)).length < f + 1 := by
      rw [← List.append_assoc, ← renderSections_cons]
      exact hfuel
    have hsub := parseSubmoduleF_render f s (renderSections t ++ ws) hfuel2
      (hl s (by simp)) hrest
    have hslen : 15 ≤ (renderSection s).length := by
      rw [renderSection_length]
      omega
    have hf15 : 15 ≤ f := by
      have := hfuel2
      simp only [List.length_append] at this
      omega
    obtain ⟨f2, rfl⟩ : ∃ f2, f = f2 + 1 := ⟨f - 1, by omega⟩
    rw [parseLoopF_succ, hempty]
    simp only [Bool.false_eq_true, if_false]
    rw [hsub]
    show parseLoopF (f2 + 1) (acc ++ [declOf s]) (eatWhitespace (renderSections t ++ ws)) =
      Except.ok (acc ++ List.map declOf (s :: t))
    cases t with
    | nil =>
      rw [show eatWhitespace (renderSections [] ++ ws) = [] by
        simpa [renderSections] using eatWhitespace_eq_nil hws]
      rw [parseLoopF_succ]
      simp
    | cons s2 t2 =>
      have hrw : eatWhitespace (renderSections (s2 :: t2) ++ ws) =
          renderSections (s2 :: t2) ++ ws := by
        rw [renderSections_cons, renderSection_cons_shape, List.append_assoc,
          List.cons_append, eatWhitespace_cons_of_not_ws (by decide)]
      rw [hrw]
      have hbound : (renderSections (s2 :: t2) ++ ws).length < f2 + 1 := by
        have h3 := hfuel2
        simp only [List.length_append] at h3 ⊢
        omega
      rw [ih f2 (acc ++ [declOf s]) ws hbound
        (fun x hx => hl x (List.mem_cons_of_mem _ hx)) hws (Or.inl (by simp))]
      simp

/-- The full parser on rendered well-formed input: exactly the rendered
sections come back, in order, possibly followed by trailing whitespace
when there is at least one section. -/
theorem parseGitModules_render (l : List RawSection) (ws : List Char)
    (hl : ∀ s ∈ l, GoodSection s)
    (hws : ∀ c ∈ ws, ewsChar c = true)
    (hne : l ≠ [] ∨ ws = []) :
    parseGitModules (renderSections l ++ ws) = .ok { submodules := l.map declOf } := by
  unfold parseGitModules
  obtain ⟨f, hf⟩ : ∃ f, (renderSections l ++ ws).length + 1 = f + 1 :=
    ⟨(renderSections l ++ ws).length, rfl⟩
  rw [hf]
  rw [parseLoopF_render l f [] ws (by omega) hl hws hne]
  rfl

/-! ### Lemmas about the discovery walk and the dispatch pipeline -/

theorem mem_walkStep_snd {p : List String} {s : Option GitModules × List (List String)}
    {e : WalkEntry} (h : p ∈ (walkStep s e).2) :
    p ∈ s.2 ∨ (endsWithDotGit e.path = true ∧ p = e.path.dropLast) := by
  simp only [walkStep, apply_ite Prod.snd] at h
  split at h
  · exact Or.inl h
  · split at h
    · exact Or.inl h
    · rename_i hnot _
      rw [List.mem_append] at h
      rcases h with h | h
      · exact Or.inl h
      · right
        refine ⟨?_, by simpa using h⟩
        simpa using hnot

theorem getRepositoriesPaths_mem :
    ∀ (entries : List WalkEntry) (s : Option GitModules × List (List String))
      (p : List String), p ∈ (entries.foldl walkStep s).2 →
      p ∈ s.2 ∨ ∃ e ∈ entries, endsWithDotGit e.path = true ∧ p = e.path.dropLast := by
  intro entries
  induction entries with
  | nil =>
    intro s p h
    exact Or.inl h
  | cons e t ih =>
    intro s p h
    rw [List.foldl_cons] at h
    rcases ih (walkStep s e) p h with h2 | h2
    · rcases mem_walkStep_snd h2 with h3 | h3
      · exact Or.inl h3
      · exact Or.inr ⟨e, by simp, h3⟩
    · obtain ⟨e2, he2, h3⟩ := h2
      exact Or.inr ⟨e2, List.mem_cons_of_mem _ he2, h3⟩

theorem walkStep_fst (s : Option GitModules × List (List String)) (e : WalkEntry) :
    (walkStep s e).1 =
      match e.gitmodulesContent with
      | some content =>
        match GitModules.parse content with
        | .ok tmp => some tmp
        | .error _ => s.1
      | none => s.1 := by
  simp only [walkStep, apply_ite Prod.fst]
  split
  · rfl
  · split <;> rfl

theorem runOne_path (exec : List String → SpawnResult) (p : List String) :
    (runOne exec p).path = p := by
  unfold runOne
  split <;> rfl

/-! ### Claim theorems -/

/-- A walk in which the parent repository declares the multi-segment
submodule path `vendor/lib`, the candidate `.git` directory sits at
`/parent/vendor/lib/.git`, and a sibling repository sits at
`/parent/other/.git`. -/
def c1Walk : List WalkEntry :=
  [⟨["parent"], some "[submodule \"mylib\"]\n\tpath = vendor/lib\n\turl = git@example.com:lib.git\n"⟩,
   ⟨["parent", "vendor", "lib", ".git"], none⟩,
   ⟨["parent", "other", ".git"], none⟩]

/-- The same walk with the declaration `path = lib` instead. -/
def c1WalkLib : List WalkEntry :=
  [⟨["parent"], some "[submodule \"mylib\"]\n\tpath = lib\n\turl = git@example.com:lib.git\n"⟩,
   ⟨["parent", "vendor", "lib", ".git"], none⟩,
   ⟨["parent", "other", ".git"], none⟩]

/-- C1 fails on the code: with the declared path `vendor/lib`, the nested
repository `/parent/vendor/lib/.git` is NOT excluded — its working-tree
root appears in the discovered sequence (the sibling appears as well). -/
theorem c1_counterexample :
    ["parent", "vendor", "lib"] ∈ getRepositoriesPaths c1Walk ∧
    ["parent", "other"] ∈ getRepositoriesPaths c1Walk := by decide

/-- C1 amended: `is_submodule` compares only the final segment of the
candidate's parent directory against the declared paths, so the
multi-segment declaration `vendor/lib` excludes nothing here and both
repositories are discovered; a single-segment declaration `lib`, equal to
that final segment, does exclude the nested candidate while the
undeclared sibling is still included. -/
theorem c1_amended :
    getRepositoriesPaths c1Walk =
      [["parent", "vendor", "lib"], ["parent", "other"]] ∧
    getRepositoriesPaths c1WalkLib = [["parent", "other"]] := by decide

/-- C2 fails on the code: the directory `/home/repo.git`, whose final
segment is `repo.git` and not `.git`, still satisfies the code's
string-suffix test and is recorded as a repository (with root `/home`). -/
theorem c2_counterexample :
    lastSegmentIsDotGit ["home", "repo.git"] = false ∧
    getRepositoriesPaths [⟨["home", "repo.git"], none⟩] = [["home"]] := by decide

/-- C2 amended: an entry is treated as a repository marker iff its
canonical path string merely ends with the characters `.git` (so
`repo.git` also qualifies), and every recorded working-tree root is some
such marker path with its final segment stripped. -/
theorem c2_amended :
    (∀ (entries : List WalkEntry) (p : List String),
        p ∈ getRepositoriesPaths entries →
        ∃ e ∈ entries, endsWithDotGit e.path = true ∧ p = e.path.dropLast) ∧
    getRepositoriesPaths
        [⟨["h", "a", ".git"], none⟩, ⟨["h", "repo.git"], none⟩,
         ⟨["h", "plain"], none⟩] = [["h", "a"], ["h"]] := by
  constructor
  · intro entries p h
    have h2 := getRepositoriesPaths_mem entries (none, []) p h
    rcases h2 with h2 | h2
    · exact absurd h2 (by simp)
    · exact h2
  · decide

/-- Witness for the amended C2 at a concrete walk. -/
theorem c2_amended_witness :
    ∃ e ∈ [(⟨["h", "a", ".git"], none⟩ : WalkEntry)],
      endsWithDotGit e.path = true ∧ ["h", "a"] = e.path.dropLast :=
  c2_amended.1 [⟨["h", "a", ".git"], none⟩] ["h", "a"] (by decide)

/-- C3 fails on the code: a whitespace-only (nonempty) input has zero
well-formed sections followed only by whitespace, yet parsing it reports
a malformed-file error instead of succeeding with no declarations. -/
theorem c3_counterexample :
    isInvalidFileErr (GitModules.parse " ") = true := by decide

/-- C3 amended: the empty input parses to no declarations, and any input
of at least one well-formed section followed only by whitespace
(including input ending mid-section) parses to exactly the sections
collected; but a nonempty whitespace-only input with zero sections is a
malformed-file error, because after skipping the whitespace the parser
demands a section header. -/
theorem c3_amended :
    GitModules.parse "" = .ok { submodules := [] } ∧
    ∀ (l : List RawSection) (ws : List Char),
      l ≠ [] → (∀ s ∈ l, GoodSection s) → (∀ c ∈ ws, ewsChar c = true) →
      parseGitModules (renderSections l ++ ws) =
        .ok { submodules := l.map declOf } := by
  constructor
  · rfl
  · intro l ws hne hl hws
    exact parseGitModules_render l ws hl hws (Or.inl hne)

/-- Witness for the amended C3: one section followed by a space and a
newline parses to exactly that declaration. -/
theorem c3_amended_witness :
    parseGitModules (renderSections [⟨"a", [("path", "p")]⟩] ++ [' ', '\n']) =
      .ok { submodules := [⟨"a", "p", "", none⟩] } := by
  have h := c3_amended.2 [⟨"a", [("path", "p")]⟩] [' ', '\n']
    (by decide) (by decide) (by decide)
  rw [h]
  decide

/-- C4 fails on the code: for the user vector `["status"]` the spawned
program is not `status` with no arguments — `do_git_command` hardcodes
the executable `git`. -/
theorem c4_counterexample :
    doGitCommand ["home", "r"] ["status"] ≠
      { program := "status", args := [], cwd := ["home", "r"] } := by decide

/-- C4 amended: for every repository path the dispatcher spawns the fixed
executable `git`, passing the entire user-supplied trailing vector
verbatim as its arguments, with the working directory set to that path. -/
theorem c4_amended :
    ∀ (path gitArgs : List String),
      doGitCommand path gitArgs =
        { program := "git", args := gitArgs, cwd := path } := by
  intro path gitArgs
  rfl

/-- C5: both malformed headers — an unquoted name and an unterminated
quoted name — make the whole parse fail with a malformed-file error. -/
theorem c5_malformed_header :
    isInvalidFileErr (GitModules.parse "[submodule foo]") = true ∧
    isInvalidFileErr (GitModules.parse "[submodule \"foo") = true := by decide

/-- C9: `main` configures rayon with `num_threads(0)`, which selects the
automatic default of one worker per available CPU — the effective worker
count scales with the machine instead of being a small fixed number
(contradicting the code's own comment about SSH multiplexing). -/
theorem c9_worker_count_per_cpu :
    configuredNumThreads = 0 ∧
    ∀ numCpus : Nat, effectiveWorkerCount numCpus = numCpus := by
  exact ⟨rfl, fun _ => rfl⟩

/-- C6: parsing any rendered well-formed input with N sections yields
exactly N declarations in section order; each declaration's name is the
header's quoted text and its path, url and optional branch are the
trimmed values of the last matching keys of that section; unrecognized
keys are accepted and ignored. -/
theorem c6_roundtrip :
    ∀ (l : List RawSection), (∀ s ∈ l, GoodSection s) →
      parseGitModules (renderSections l) = .ok { submodules := l.map declOf } ∧
      (l.map declOf).length = l.length := by
  intro l hl
  constructor
  · have h := parseGitModules_render l [] hl (by simp) (Or.inr rfl)
    simpa using h
  · simp

/-- Witness for C6: a section with path, branch and an unrecognized
`foo = bar` key parses to the expected single declaration. -/
theorem c6_roundtrip_witness :
    parseGitModules (renderSections
        [⟨"yep", [("path", " yop"), ("branch", "master"), ("foo", "bar")]⟩]) =
      .ok { submodules := [⟨"yep", "yop", "", some "master"⟩] } := by
  have h := (c6_roundtrip
    [⟨"yep", [("path", " yop"), ("branch", "master"), ("foo", "bar")]⟩]
    (by decide)).1
  rw [h]
  decide

/-- C7: dispatching then aggregating produces exactly one outcome per
input path — the outcome count equals the path count, the two partitions
together have exactly as many items as paths, and the multiset of paths
carried by the partitioned outcomes is exactly the input multiset (no
path lost, none duplicated). -/
theorem c7_outcome_completeness :
    ∀ (exec : List String → SpawnResult) (paths : List (List String)),
      (runAll exec paths).length = paths.length ∧
      (partitionItems (runAll exec paths)).1.length +
          (partitionItems (runAll exec paths)).2.length = paths.length ∧
      List.Perm
        (((partitionItems (runAll exec paths)).1 ++
            (partitionItems (runAll exec paths)).2).map Item.path) paths := by
  intro exec paths
  have hmap : (runAll exec paths).map Item.path = paths := by
    unfold runAll
    rw [List.map_map]
    have hcomp : Item.path ∘ runOne exec = id := funext (fun p => runOne_path exec p)
    rw [hcomp, List.map_id]
  have hpart : partitionItems (runAll exec paths) =
      ((runAll exec paths).filter (fun it => it.success),
       (runAll exec paths).filter (fun it => !it.success)) := by
    unfold partitionItems
    exact List.partition_eq_filter_filter _ _
  have hperm : List.Perm
      ((runAll exec paths).filter (fun it => it.success) ++
        (runAll exec paths).filter (fun it => !it.success)) (runAll exec paths) :=
    List.filter_append_perm _ _
  have hlen : (runAll exec paths).length = paths.length := by
    simp [runAll]
  refine ⟨hlen, ?_, ?_⟩
  · simp only [hpart]
    have h2 := hperm.length_eq
    simp only [List.length_append] at h2
    omega
  · simp only [hpart]
    have h2 := hperm.map Item.path
    rw [hmap] at h2
    exact h2

/-- C8: the current `GitModules` held by the walk is updated exactly by
successful parses — a missing `.gitmodules` leaves it unchanged, a failed
parse leaves it unchanged (the failure is swallowed and the walk
continues), and a successful parse replaces it outright with the newly
parsed set. -/
theorem c8_parse_failure_swallowed :
    ∀ (s : Option GitModules × List (List String)) (e : WalkEntry),
      (e.gitmodulesContent = none → (walkStep s e).1 = s.1) ∧
      (∀ c err, e.gitmodulesContent = some c →
        GitModules.parse c = .error err → (walkStep s e).1 = s.1) ∧
      (∀ c g, e.gitmodulesContent = some c →
        GitModules.parse c = .ok g → (walkStep s e).1 = some g) := by
  intro s e
  refine ⟨?_, ?_, ?_⟩
  · intro h
    rw [walkStep_fst, h]
  · intro c err hc hp
    rw [walkStep_fst, hc]
    show (match GitModules.parse c with
      | .ok tmp => some tmp
      | .error _ => s.1) = s.1
    rw [hp]
  · intro c g hc hp
    rw [walkStep_fst, hc]
    show (match GitModules.parse c with
      | .ok tmp => some tmp
      | .error _ => s.1) = some g
    rw [hp]

/-- Witness for C8: a malformed `.gitmodules` leaves the (empty) current
set unchanged; a well-formed one replaces it. -/
theorem c8_parse_failure_swallowed_witness :
    (walkStep (none, []) ⟨["x"], some "[submodule foo]"⟩).1 = none ∧
    (walkStep (none, []) ⟨["x"], some "[submodule \"a\"]"⟩).1 =
      some { submodules := [⟨"a", "", "", none⟩] } := by
  constructor
  · exact (c8_parse_failure_swallowed (none, []) ⟨["x"], some "[submodule foo]"⟩).2.1
      "[submodule foo]"
      (.invalidFile "expected submodule name to start with a \"") rfl (by decide)
  · exact (c8_parse_failure_swallowed (none, []) ⟨["x"], some "[submodule \"a\"]"⟩).2.2
      "[submodule \"a\"]" { submodules := [⟨"a", "", "", none⟩] } rfl (by decide)

/-- The declaration set parsed from a section that has no `path` key. -/
def gmC10 : GitModules := { submodules := [⟨"nopath", "", "u", none⟩] }

/-- C10: a section without a `path` key parses successfully into a
declaration with the empty path (missing `url` likewise defaults to the
empty string and missing `branch` to none); its membership test accepts
only the empty path and therefore never excludes a real candidate
directory. -/
theorem c10_missing_keys_defaults :
    GitModules.parse "[submodule \"nopath\"]\nurl = u" = .ok gmC10 ∧
    (∀ p : List String, gmC10.contains p = true ↔ p = []) ∧
    (∀ path : List String, path ≠ [] →
      isSubmodule path (some gmC10) = false) := by
  refine ⟨by decide, ?_, ?_⟩
  · intro p
    show (List.any _ _ = true) ↔ _
    simp only [gmC10, List.any_cons, List.any_nil, Bool.or_false]
    rw [show pathComponents "" = [] from rfl]
    constructor
    · intro h
      exact (beq_iff_eq.mp h).symm
    · intro h
      subst h
      rfl
  · intro path hne
    have hie : path.isEmpty = false := by simpa [List.isEmpty_iff] using hne
    simp only [isSubmodule, hie, Bool.false_eq_true, if_false]
    cases path.dropLast.getLast? with
    | none => rfl
    | some c => rfl

/-- Witness for C10: the empty path is accepted by the membership test
and a concrete three-segment candidate is not treated as a submodule. -/
theorem c10_missing_keys_defaults_witness :
    gmC10.contains [] = true ∧
    isSubmodule ["a", "b", ".git"] (some gmC10) = false := by
  constructor
  · exact (c10_missing_keys_defaults.2.1 []).mpr rfl
  · exact c10_missing_keys_defaults.2.2 ["a", "b", ".git"] (by decide)
